import Mathlib

/-!
Verification development for the Dick_of_Cards_GAME repository: a shallow
embedding of the auction-game core (card.py, player.py, deck.py, auction.py,
game.py) and theorems settling the specification's claims.

Modelling conventions:
* Python `Rank` is an enum with numeric values 2..14; we model a card's rank
  directly as that numeric value (`rank : Nat`).  `Card.value` mirrors the
  derived `value` attribute (`self.value = self.rank.value`).
* Python `Card.__eq__` compares `value` only, so list membership and
  `list.remove` work up to rank equality; `removeFirstEq` embeds
  `list.remove` with exactly that equality.
* Players are identified by their position in `Game.players`; the Python
  `bids` dictionary is keyed by `Player` objects under identity, which the
  positional index models.  The presentation-only fields `name`, `suit`
  and `metadata` are omitted.
* The Python bids dictionary preserves insertion order, so `Bids` is an
  insertion-ordered association list.
* Python `sorted(..., reverse=True)` is a stable descending sort;
  `sortBidsDesc` is the corresponding stable insertion sort.
* `tie_handling` is the string "split" or "carry_forward" in Python,
  validated by `set_tie_handling`; we model it as the two-value inductive
  `TieHandling`.
* The split value `diamond / len(tied)` is a Python float; we record it as
  an exact rational.  None of the settled claims depends on float rounding.
* `Deck.draw_card` pops the LAST element of the deck's card list
  (`self.cards.pop()`), so the "top" of the pile is the list's last entry.
* Strategies (`make_bid`) are external collaborators; round-level
  definitions are parametrised by an arbitrary bid function receiving the
  player's index, the player and the revealed card.
-/

namespace DickOfCards

/-- The four suits of card.py. -/
inductive Suit where
  | hearts | clubs | diamonds | spades
deriving DecidableEq, Repr

/-- card.py `Card`: a suit and a numeric rank value (2..14 in the source
enum).  `value` is derived from the rank in `__post_init__`. -/
structure Card where
  suit : Suit
  rank : Nat
deriving DecidableEq, Repr

/-- `Card.get_numeric_value` / the derived `value` attribute. -/
def Card.value (c : Card) : Nat := c.rank

/-- player.py `Player`: the hand and the won-card collection.  Identity,
name, suit and metadata are presentation-only and omitted; a player is
identified by its index in the game's player list. -/
structure Player where
  hand : List Card
  won_cards : List Card
deriving DecidableEq, Repr

/-- Python `list.remove(card)` under `Card.__eq__` (rank-only equality):
drop the first rank-equal card, or fail with `none` (ValueError). -/
def removeFirstEq : List Card → Card → Option (List Card)
  | [], _ => none
  | x :: xs, c =>
    if x.rank = c.rank then some xs
    else (removeFirstEq xs c).map (fun l => x :: l)

/-- player.py `Player.remove_card`: remove the first rank-equal card from
the hand, returning whether a card was removed. -/
def Player.remove_card (p : Player) (c : Card) : Player × Bool :=
  match removeFirstEq p.hand c with
  | some h => ({ p with hand := h }, true)
  | none => (p, false)

/-- player.py `Player.add_won_card`. -/
def Player.add_won_card (p : Player) (c : Card) : Player :=
  { p with won_cards := p.won_cards ++ [c] }

/-- player.py `Player.get_score`: sum of the values of the won cards. -/
def Player.get_score (p : Player) : Nat :=
  (p.won_cards.map Card.value).sum

/-- player.py `Player.has_cards`. -/
def Player.has_cards (p : Player) : Bool :=
  decide (p.hand.length > 0)

/-- auction.py tie handling: the validated values of
`Auction.set_tie_handling` ("split" / "carry_forward"). -/
inductive TieHandling where
  | split | carry_forward
deriving DecidableEq, Repr

/-- auction.py `AuctionResult` enum. -/
inductive AuctionResult where
  | winner_determined | tie_split | tie_carry
deriving DecidableEq, Repr

/-- The `result_type` field of `Auction.resolve_auction`'s result
dictionary: either one of the strings 'no_bids' / 'insufficient_bids' or a
member of the `AuctionResult` enum. -/
inductive ResultType where
  | no_bids | insufficient_bids | winner_determined | tie_split | tie_carry
deriving DecidableEq, Repr

/-- The auction's bid map: insertion-ordered association list from player
index to bid card (Python dict preserves insertion order). -/
abbrev Bids := List (Nat × Card)

/-- `player in self.bids`. -/
def hasBid (bids : Bids) (p : Nat) : Bool :=
  bids.any (fun e => e.1 = p)

/-- auction.py `Auction.place_bid`: refuse (no-op, `false`) if the player
already has a bid this round, otherwise record the bid. -/
def place_bid (bids : Bids) (p : Nat) (c : Card) : Bids × Bool :=
  if hasBid bids p then (bids, false)
  else (bids ++ [(p, c)], true)

/-- One step of the stable descending insertion sort: keep earlier entries
whose card value is strictly greater, insert before the first entry whose
value is less than or equal (preserving original order among equal
values, as Python's stable `sorted` does). -/
def insertBidDesc (x : Nat × Card) : Bids → Bids
  | [] => [x]
  | y :: ys =>
    if y.2.value > x.2.value then y :: insertBidDesc x ys
    else x :: y :: ys

/-- `sorted(self.bids.items(), key=..., reverse=True)`: stable sort by
card value, highest first. -/
def sortBidsDesc (l : Bids) : Bids := l.foldr insertBidDesc []

/-- auction.py `Auction.determine_winner`: with fewer than two bids return
`(WINNER_DETERMINED, None, None)`; otherwise sort the bids by value
descending, collect the players tied at the highest value, and return a
tie outcome (per the tie policy) or the clear winner. -/
def determine_winner (bids : Bids) (tie : TieHandling) :
    AuctionResult × Option Nat × Option (List Nat) :=
  if bids.length < 2 then (.winner_determined, none, none)
  else
    match sortBidsDesc bids with
    | [] => (.winner_determined, none, none)
    | top :: rest =>
      let highest := top.2.value
      let tied := ((top :: rest).filter (fun e => e.2.value = highest)).map (fun e => e.1)
      if tied.length > 1 then
        match tie with
        | .split => (.tie_split, none, some tied)
        | .carry_forward => (.tie_carry, none, some tied)
      else (.winner_determined, some top.1, some [top.1])

/-- The result dictionary built by `Auction.resolve_auction`.  The
`diamond_card` field is the revealed card (`self.current_diamond`, always
set by `start_auction` before resolution in the round loop). -/
structure ResolveResult where
  diamond_card : Card
  bids : Bids
  result_type : ResultType
  winner : Option Nat
  tied_players : Option (List Nat)
  diamond_awarded : Bool
  carry_forward : Bool
  split_values : List (Nat × Rat)
deriving DecidableEq, Repr

/-- auction.py `Auction.resolve_auction`: dispatch on the recorded bids as
the source does — empty map is 'no_bids'; `determine_winner` with a `None`
winner becomes 'insufficient_bids'; a clear winner awards the diamond; a
split tie awards fractional values `value / |tied|`; a carry-forward tie
marks the diamond for requeueing. -/
def resolve_auction (diamond : Card) (bids : Bids) (tie : TieHandling) : ResolveResult :=
  if bids.isEmpty then
    { diamond_card := diamond, bids := bids, result_type := .no_bids,
      winner := none, tied_players := some [], diamond_awarded := false,
      carry_forward := false, split_values := [] }
  else
    match determine_winner bids tie with
    | (ar, winner, tied_players) =>
      match ar with
      | .winner_determined =>
        match winner with
        | some w =>
          { diamond_card := diamond, bids := bids, result_type := .winner_determined,
            winner := some w, tied_players := tied_players, diamond_awarded := true,
            carry_forward := false, split_values := [] }
        | none =>
          { diamond_card := diamond, bids := bids, result_type := .insufficient_bids,
            winner := none, tied_players := tied_players, diamond_awarded := false,
            carry_forward := false, split_values := [] }
      | .tie_split =>
        { diamond_card := diamond, bids := bids, result_type := .tie_split,
          winner := winner, tied_players := tied_players, diamond_awarded := true,
          carry_forward := false,
          split_values := (tied_players.getD []).map
            (fun p => (p, (diamond.value : Rat) / ((tied_players.getD []).length : Rat))) }
      | .tie_carry =>
        { diamond_card := diamond, bids := bids, result_type := .tie_carry,
          winner := winner, tied_players := tied_players, diamond_awarded := false,
          carry_forward := true, split_values := [] }

/-- The round-result dictionary of game.py `Game.play_round`.  The
`error` flag models the `{'error': ...}` early return; the remaining
fields carry the dictionary's default values when untouched. -/
structure RoundResult where
  error : Bool := false
  round_number : Nat := 0
  diamond_card : Option Card := none
  bids : Bids := []
  result : Option ResolveResult := none
  winner : Option Nat := none
  carry_forward : Bool := false
  game_over : Bool := false
deriving DecidableEq, Repr

/-- game.py `Game` state: the player list, the auction deck (drawn from
the END of the list, as `Deck.draw_card` pops the last element), the round
counter, the terminal flag, the carry-forward queue (popped from the
front) and the round history.  The unused `max_rounds` attribute and the
ephemeral `Auction` object's per-round fields are omitted; the auction's
bid map lives only within one `play_round` call. -/
structure Game where
  players : List Player
  deck : List Card
  round_number : Nat
  game_over : Bool
  carry_forward_diamonds : List Card
  tie_handling : TieHandling
  game_history : List RoundResult
deriving DecidableEq, Repr

/-- game.py `Game._should_end_game`: all players are out of cards. -/
def should_end_game (players : List Player) : Bool :=
  players.all (fun p => !p.has_cards)

/-- game.py `Game._get_auction_card`: pop the front of the carry-forward
queue if non-empty, else draw the top (last list entry) of the auction
deck; `none` when both are empty. -/
def get_auction_card (g : Game) : Option Card × Game :=
  match g.carry_forward_diamonds with
  | c :: rest => (some c, { g with carry_forward_diamonds := rest })
  | [] =>
    match g.deck.getLast? with
    | none => (none, g)
    | some c => (some c, { g with deck := g.deck.dropLast })

/-- The loop body of game.py `Game._collect_bids`, carrying the index of
the current player: players with empty hands are skipped, a strategy
returning no card is skipped, and otherwise the bid is placed. -/
def collect_bids_aux (bid : Nat → Player → Option Card) :
    Nat → List Player → Bids → Bids
  | _, [], bids => bids
  | i, pl :: rest, bids =>
    let bids' :=
      if pl.has_cards then
        match bid i pl with
        | some c => (place_bid bids i c).1
        | none => bids
      else bids
    collect_bids_aux bid (i + 1) rest bids'

/-- game.py `Game._collect_bids`, parametrised by the external strategy
call `player.make_bid(...)` as a function of the player's index and the
player. -/
def collect_bids (players : List Player) (bid : Nat → Player → Option Card) : Bids :=
  collect_bids_aux bid 0 players []

/-- `winner.add_won_card(diamond_card)` for the player at index `i`. -/
def add_won_at (players : List Player) (i : Nat) (c : Card) : List Player :=
  match players[i]? with
  | none => players
  | some pl => players.set i (pl.add_won_card c)

/-- game.py `Game._process_auction_results`: a determined winner receives
the diamond into its won set; under a split tie EVERY tied player receives
the (undivided) diamond card into its won set — the source adds the
original card for each entry of `split_values` ("handle scoring
separately"); every other outcome moves no card. -/
def process_auction_results (players : List Player) (res : ResolveResult) :
    List Player :=
  match res.result_type with
  | .winner_determined =>
    match res.winner with
    | some w => add_won_at players w res.diamond_card
    | none => players
  | .tie_split =>
    res.split_values.foldl (fun ps pv => add_won_at ps pv.1 res.diamond_card) players
  | _ => players

/-- game.py `Game._remove_bid_cards`: remove each recorded bid card from
the corresponding player's hand (via `Player.remove_card`, rank-equality
removal whose failure is silently ignored). -/
def remove_bid_cards (players : List Player) (bids : Bids) : List Player :=
  bids.foldl (fun ps e =>
    match ps[e.1]? with
    | none => ps
    | some pl => ps.set e.1 (pl.remove_card e.2).1) players

/-- game.py `Game.play_round`, parametrised by the strategies.  Mirrors
the source's order of effects: error return when the game is already
over; increment of the round counter; end checks (all hands empty, then
no auction card); bid collection; resolution; result processing (won-card
awards); carry-forward enqueueing (`elif` on a `None` winner); bid-card
removal; history append. -/
def play_round (g : Game) (strat : Nat → Player → Card → Option Card) :
    Game × RoundResult :=
  if g.game_over then
    (g, { error := true })
  else
    let g1 : Game := { g with round_number := g.round_number + 1 }
    if should_end_game g1.players then
      ({ g1 with game_over := true },
       { round_number := g1.round_number, game_over := true })
    else
      match get_auction_card g1 with
      | (none, g2) =>
        ({ g2 with game_over := true },
         { round_number := g2.round_number, game_over := true })
      | (some card, g2) =>
        let bids := collect_bids g2.players (fun i pl => strat i pl card)
        let res := resolve_auction card bids g2.tie_handling
        let players1 := process_auction_results g2.players res
        let carry := res.winner.isNone && res.carry_forward
        let queue1 :=
          if carry then g2.carry_forward_diamonds ++ [res.diamond_card]
          else g2.carry_forward_diamonds
        let players2 := remove_bid_cards players1 res.bids
        let rr : RoundResult :=
          { round_number := g2.round_number, diamond_card := some card,
            bids := bids, result := some res, winner := res.winner,
            carry_forward := carry, game_over := false }
        ({ g2 with players := players2, carry_forward_diamonds := queue1,
                   game_history := g2.game_history ++ [rr] }, rr)

/-! ### Counting helpers for card-conservation claims -/

/-- Total number of cards held in hands across a player list. -/
def handCount (players : List Player) : Nat :=
  (players.map (fun p => p.hand.length)).sum

/-- Total number of cards in won sets across a player list. -/
def wonCount (players : List Player) : Nat :=
  (players.map (fun p => p.won_cards.length)).sum

/-- Number of physical cards in the regions named by the conservation
claim: all hands, the auction pile, the carry-forward queue and all
won-card sets. -/
def totalCards (g : Game) : Nat :=
  handCount g.players + wonCount g.players
    + g.deck.length + g.carry_forward_diamonds.length

/-- The maximum card value among recorded bids (0 when there are none). -/
def maxBidValue (bids : Bids) : Nat :=
  bids.foldr (fun e m => max e.2.value m) 0

/-- Number of bids a given player holds in a bid map. -/
def countBid (bids : Bids) (p : Nat) : Nat :=
  (bids.filter (fun e => e.1 = p)).length

/-- Card value at the head of a bid list (0 when empty). -/
def headVal : Bids → Nat
  | [] => 0
  | e :: _ => e.2.value

/-- The players whose bid card value equals the round maximum, in bid
order: the `tied` collection the tie-break claim describes. -/
def tiedAtMax (bids : Bids) : List Nat :=
  (bids.filter (fun e => e.2.value = maxBidValue bids)).map (fun e => e.1)

/-- One exactly when the resolution drops the revealed card: a round with
zero recorded bids or a single (insufficient) bid neither awards the card
nor returns it to any pile. -/
def droppedCount (res : ResolveResult) : Nat :=
  match res.result_type with
  | ResultType.no_bids => 1
  | ResultType.insufficient_bids => 1
  | _ => 0

/-- Extra copies of the revealed card created by a split award (the
source adds the undivided card to every tied player's won set): one per
tied player beyond the first. -/
def duplicatedCount (res : ResolveResult) : Nat :=
  match res.result_type with
  | ResultType.tie_split => res.split_values.length - 1
  | _ => 0

/-- Decidable statement that a recorded bid is covered by the bidder's
hand: the player at the bid's index holds a card of the bid card's rank
(rank is what `Player.remove_card` matches on). -/
def bidMatches (players : List Player) (e : Nat × Card) : Bool :=
  match players[e.1]? with
  | some pl => pl.hand.any (fun x => x.rank = e.2.rank)
  | none => true

/-! ### Concrete game data: a freshly set-up two-player game

`Game.setup_game` deals every card of a player's suit to that player and
leaves the (shuffled) diamonds as the auction deck; the hand and deck
orders below are one possible shuffle outcome.  Both players use the
source's "aggressive" computer strategy. -/

/-- Python `max(self.hand)` under the rank-only order: the first card of
maximal value. -/
def maxCard : List Card → Option Card
  | [] => none
  | x :: xs => some (xs.foldl (fun b y => if y.value > b.value then y else b) x)

/-- player.py `ComputerPlayer._aggressive_bid` ("Always bid the highest
card"), including `make_bid`'s empty-hand guard. -/
def aggressive_bid (pl : Player) : Option Card :=
  if pl.hand.isEmpty then none else maxCard pl.hand

/-- Every player configured with the aggressive strategy. -/
def aggStrat : Nat → Player → Card → Option Card := fun _ pl _ => aggressive_bid pl

/-- All thirteen cards of one suit, ranks 2..14 ascending. -/
def suitRun (s : Suit) : List Card := (List.range 13).map (fun n => ⟨s, n + 2⟩)

/-- A freshly set-up two-player game: hearts player, spades player,
diamond auction pile, SPLIT tie policy (the default). -/
def setupGame : Game :=
  { players := [⟨suitRun Suit.hearts, []⟩, ⟨suitRun Suit.spades, []⟩],
    deck := suitRun Suit.diamonds,
    round_number := 0,
    game_over := false,
    carry_forward_diamonds := [],
    tie_handling := TieHandling.split,
    game_history := [] }

/-- The ace of diamonds: the first card revealed from `setupGame`'s pile
(the deck draws from the back). -/
def aceDiamonds : Card := ⟨Suit.diamonds, 14⟩

/-- `setupGame` after the first round's draw. -/
def setupDrawn : Game :=
  { setupGame with round_number := 1, deck := (suitRun Suit.diamonds).dropLast }

/-- Small named cards for the remaining concrete scenarios. -/
def kingHearts : Card := ⟨Suit.hearts, 13⟩

def kingSpades : Card := ⟨Suit.spades, 13⟩

def queenSpades : Card := ⟨Suit.spades, 12⟩

def tenDiamonds : Card := ⟨Suit.diamonds, 10⟩

/-- A late-game position: player 0 holds only the king of hearts, player
1 only the queen of spades, one diamond left in the pile. -/
def violGame : Game :=
  { players := [⟨[kingHearts], []⟩, ⟨[queenSpades], []⟩],
    deck := [tenDiamonds],
    round_number := 0,
    game_over := false,
    carry_forward_diamonds := [],
    tie_handling := TieHandling.split,
    game_history := [] }

/-- A contract-violating strategy assignment: player 0's strategy returns
the king of SPADES — a card not present in its hand (which holds the king
of HEARTS) — while player 1 bids its own queen of spades. -/
def violStrat : Nat → Player → Card → Option Card :=
  fun i _ _ => if i = 0 then some kingSpades else some queenSpades

/-- A finished game (terminal flag already set). -/
def overGame : Game := { violGame with game_over := true }

/-- `violGame` with a carried-forward card waiting in the queue. -/
def queueGame : Game := { violGame with carry_forward_diamonds := [kingSpades] }

/-- `violGame` with the auction supply exhausted. -/
def drainedGame : Game := { violGame with deck := [] }


/-! ### Basic list bookkeeping lemmas -/

lemma sum_map_set (f : Player → Nat) :
    ∀ (l : List Player) (i : Nat) (pl pl' : Player), l[i]? = some pl →
      ((l.set i pl').map f).sum + f pl = (l.map f).sum + f pl' := by
  intro l
  induction l with
  | nil => intro i pl pl' h; simp at h
  | cons x xs ih =>
    intro i pl pl' h
    cases i with
    | zero =>
      simp only [List.getElem?_cons_zero, Option.some.injEq] at h
      subst h
      simp [List.set]
      omega
    | succ n =>
      simp only [List.getElem?_cons_succ] at h
      simp only [List.set, List.map_cons, List.sum_cons]
      have := ih n pl pl' h
      omega

lemma handCount_set {l : List Player} {i : Nat} {pl : Player} (pl' : Player)
    (h : l[i]? = some pl) :
    handCount (l.set i pl') + pl.hand.length = handCount l + pl'.hand.length :=
  sum_map_set (fun p => p.hand.length) l i pl pl' h

lemma wonCount_set {l : List Player} {i : Nat} {pl : Player} (pl' : Player)
    (h : l[i]? = some pl) :
    wonCount (l.set i pl') + pl.won_cards.length = wonCount l + pl'.won_cards.length :=
  sum_map_set (fun p => p.won_cards.length) l i pl pl' h

lemma removeFirstEq_length : ∀ {l : List Card} {c : Card} {l' : List Card},
    removeFirstEq l c = some l' → l'.length + 1 = l.length := by
  intro l
  induction l with
  | nil => intro c l' h; simp [removeFirstEq] at h
  | cons x xs ih =>
    intro c l' h
    by_cases hx : x.rank = c.rank
    · simp [removeFirstEq, hx] at h
      subst h; simp
    · simp [removeFirstEq, hx] at h
      obtain ⟨m, hm, rfl⟩ := h
      have := ih hm
      simp [← this]

lemma removeFirstEq_isSome : ∀ {l : List Card} {c : Card},
    (∃ x ∈ l, x.rank = c.rank) → ∃ l', removeFirstEq l c = some l' := by
  intro l
  induction l with
  | nil => intro c h; simp at h
  | cons x xs ih =>
    intro c h
    by_cases hx : x.rank = c.rank
    · exact ⟨xs, by simp [removeFirstEq, hx]⟩
    · obtain ⟨y, hy, hyr⟩ := h
      rw [List.mem_cons] at hy
      rcases hy with rfl | hy
      · exact absurd hyr hx
      · obtain ⟨l', hl'⟩ := ih ⟨y, hy, hyr⟩
        exact ⟨x :: l', by simp [removeFirstEq, hx, hl']⟩

lemma removeFirstEq_none_iff : ∀ {l : List Card} {c : Card},
    removeFirstEq l c = none ↔ ∀ x ∈ l, x.rank ≠ c.rank := by
  intro l
  induction l with
  | nil => intro c; simp [removeFirstEq]
  | cons x xs ih =>
    intro c
    by_cases hx : x.rank = c.rank
    · simp [removeFirstEq, hx]
    · simp [removeFirstEq, hx, Option.map_eq_none', ih]

lemma removeFirstEq_skip : ∀ {l₁ : List Card} {x : Card} {l₂ : List Card} {c : Card},
    (∀ y ∈ l₁, y.rank ≠ c.rank) → x.rank = c.rank →
    removeFirstEq (l₁ ++ x :: l₂) c = some (l₁ ++ l₂) := by
  intro l₁
  induction l₁ with
  | nil => intro x l₂ c _ hx; simp [removeFirstEq, hx]
  | cons y ys ih =>
    intro x l₂ c h1 hx
    have hy : y.rank ≠ c.rank := h1 y (by simp)
    simp only [List.cons_append, removeFirstEq, if_neg hy, List.append_eq]
    rw [ih (fun z hz => h1 z (by simp [hz])) hx]
    rfl

/-- `Player.remove_card` succeeds exactly on a rank match, shrinking the
hand by one and leaving the won set untouched. -/
lemma remove_card_of_match {pl : Player} {c : Card}
    (h : ∃ x ∈ pl.hand, x.rank = c.rank) :
    ∃ h', removeFirstEq pl.hand c = some h' ∧
      (pl.remove_card c).1 = { pl with hand := h' } ∧
      (pl.remove_card c).2 = true ∧ h'.length + 1 = pl.hand.length := by
  obtain ⟨h', hh⟩ := removeFirstEq_isSome h
  exact ⟨h', hh, by simp [Player.remove_card, hh], by simp [Player.remove_card, hh],
    removeFirstEq_length hh⟩

/-! ### Lemmas about `get_auction_card` and termination -/

lemma get_auction_card_none_iff (g : Game) :
    (get_auction_card g).1 = none ↔
      g.carry_forward_diamonds = [] ∧ g.deck = [] := by
  unfold get_auction_card
  cases hq : g.carry_forward_diamonds with
  | cons c rest => simp
  | nil =>
    cases hd : g.deck.getLast? with
    | none =>
      simp only [List.getLast?_eq_none_iff] at hd
      simp [hd]
    | some c =>
      rw [List.getLast?_eq_some_iff] at hd
      obtain ⟨ys, hys⟩ := hd
      simp [hys]

lemma get_auction_card_game_over (g : Game) :
    (get_auction_card g).2.game_over = g.game_over := by
  unfold get_auction_card
  cases g.carry_forward_diamonds with
  | cons c rest => rfl
  | nil => cases g.deck.getLast? <;> rfl

/-- Drawing a card preserves the players and the tie policy, and removes
exactly one card from the combined supply (queue plus pile). -/
lemma get_auction_card_some (g : Game) {c : Card} {g2 : Game}
    (h : get_auction_card g = (some c, g2)) :
    g2.players = g.players ∧ g2.tie_handling = g.tie_handling ∧
      g2.game_over = g.game_over ∧ g2.round_number = g.round_number ∧
      g2.game_history = g.game_history ∧
      g2.deck.length + g2.carry_forward_diamonds.length + 1
        = g.deck.length + g.carry_forward_diamonds.length := by
  unfold get_auction_card at h
  cases hq : g.carry_forward_diamonds with
  | cons c0 rest =>
    rw [hq] at h
    simp only [Prod.mk.injEq, Option.some.injEq] at h
    obtain ⟨rfl, rfl⟩ := h
    simp [hq]
    omega
  | nil =>
    rw [hq] at h
    cases hd : g.deck.getLast? with
    | none => rw [hd] at h; simp at h
    | some c1 =>
      rw [hd] at h
      simp only [Prod.mk.injEq, Option.some.injEq] at h
      obtain ⟨rfl, rfl⟩ := h
      rw [List.getLast?_eq_some_iff] at hd
      obtain ⟨ys, hys⟩ := hd
      simp [hq, hys]

lemma should_end_game_iff (players : List Player) :
    should_end_game players = true ↔ ∀ pl ∈ players, pl.hand = [] := by
  unfold should_end_game
  rw [List.all_eq_true]
  constructor
  · intro h pl hpl
    have := h pl hpl
    simpa [Player.has_cards] using this
  · intro h pl hpl
    simp [Player.has_cards, h pl hpl]

/-! ### The stable descending sort of `determine_winner` -/

lemma insertBidDesc_perm (x : Nat × Card) (s : Bids) :
    (insertBidDesc x s).Perm (x :: s) := by
  induction s with
  | nil => simp [insertBidDesc]
  | cons y ys ih =>
    by_cases h : y.2.value > x.2.value
    · simp only [insertBidDesc, if_pos h]
      exact (ih.cons y).trans (List.Perm.swap x y ys)
    · simp [insertBidDesc, if_neg h]

lemma sortBidsDesc_perm (l : Bids) : (sortBidsDesc l).Perm l := by
  induction l with
  | nil => simp [sortBidsDesc]
  | cons x t ih =>
    have : sortBidsDesc (x :: t) = insertBidDesc x (sortBidsDesc t) := rfl
    rw [this]
    exact (insertBidDesc_perm x (sortBidsDesc t)).trans (ih.cons x)

lemma sortBidsDesc_length (l : Bids) : (sortBidsDesc l).length = l.length :=
  (sortBidsDesc_perm l).length_eq

lemma mem_of_mem_sortBidsDesc {e : Nat × Card} {l : Bids}
    (h : e ∈ sortBidsDesc l) : e ∈ l :=
  ((sortBidsDesc_perm l).mem_iff).mp h

lemma headVal_insertBidDesc (x : Nat × Card) (s : Bids) :
    headVal (insertBidDesc x s) = max x.2.value (headVal s) := by
  cases s with
  | nil => simp [insertBidDesc, headVal]
  | cons y ys =>
    by_cases h : y.2.value > x.2.value
    · simp only [insertBidDesc, if_pos h, headVal]
      omega
    · simp only [insertBidDesc, if_neg h, headVal]
      omega

lemma headVal_sortBidsDesc (l : Bids) : headVal (sortBidsDesc l) = maxBidValue l := by
  induction l with
  | nil => simp [sortBidsDesc, headVal, maxBidValue]
  | cons x t ih =>
    have hs : sortBidsDesc (x :: t) = insertBidDesc x (sortBidsDesc t) := rfl
    rw [hs, headVal_insertBidDesc, ih]
    simp [maxBidValue]

lemma filter_insertBidDesc_pos {x : Nat × Card} {k : Nat} (h : x.2.value = k)
    (s : Bids) :
    (insertBidDesc x s).filter (fun e => e.2.value = k)
      = x :: s.filter (fun e => e.2.value = k) := by
  induction s with
  | nil => simp [insertBidDesc, h]
  | cons y ys ih =>
    by_cases hy : y.2.value > x.2.value
    · have hyk : ¬ (y.2.value = k) := by omega
      simp only [insertBidDesc, if_pos hy]
      rw [List.filter_cons_of_neg (by simpa using hyk), ih,
        List.filter_cons_of_neg (by simpa using hyk)]
    · simp only [insertBidDesc, if_neg hy]
      rw [List.filter_cons_of_pos (by simpa using h)]

lemma filter_insertBidDesc_neg {x : Nat × Card} {k : Nat} (h : ¬ x.2.value = k)
    (s : Bids) :
    (insertBidDesc x s).filter (fun e => e.2.value = k)
      = s.filter (fun e => e.2.value = k) := by
  induction s with
  | nil => simp [insertBidDesc, h]
  | cons y ys ih =>
    by_cases hy : y.2.value > x.2.value
    · simp only [insertBidDesc, if_pos hy]
      by_cases hyk : y.2.value = k
      · rw [List.filter_cons_of_pos (by simpa using hyk), ih,
          List.filter_cons_of_pos (by simpa using hyk)]
      · rw [List.filter_cons_of_neg (by simpa using hyk), ih,
          List.filter_cons_of_neg (by simpa using hyk)]
    · simp only [insertBidDesc, if_neg hy]
      rw [List.filter_cons_of_neg (by simpa using h)]

/-- Stability: filtering the sorted bids at a fixed value gives the same
list (same order) as filtering the original bids. -/
lemma filter_sortBidsDesc (l : Bids) (k : Nat) :
    (sortBidsDesc l).filter (fun e => e.2.value = k)
      = l.filter (fun e => e.2.value = k) := by
  induction l with
  | nil => simp [sortBidsDesc]
  | cons x t ih =>
    have hs : sortBidsDesc (x :: t) = insertBidDesc x (sortBidsDesc t) := rfl
    rw [hs]
    by_cases hx : x.2.value = k
    · rw [filter_insertBidDesc_pos hx, ih, List.filter_cons_of_pos (by simpa using hx)]
    · rw [filter_insertBidDesc_neg hx, ih, List.filter_cons_of_neg (by simpa using hx)]

/-- Characterisation of `determine_winner` for a proper auction (at least
two bids): the tied list is exactly the players whose bid value equals the
round maximum, in bid order; a singleton yields that player as the clear
winner, otherwise the tie outcome follows the tie policy. -/
lemma determine_winner_spec (bids : Bids) (tie : TieHandling)
    (h2 : 2 ≤ bids.length) :
    ∃ w tl, tiedAtMax bids = w :: tl ∧
      (tl = [] → determine_winner bids tie
        = (AuctionResult.winner_determined, some w, some [w])) ∧
      (tl ≠ [] → determine_winner bids tie
        = ((match tie with
            | TieHandling.split => AuctionResult.tie_split
            | TieHandling.carry_forward => AuctionResult.tie_carry), none,
           some (w :: tl))) := by
  have hlen := sortBidsDesc_length bids
  cases hs : sortBidsDesc bids with
  | nil => rw [hs] at hlen; simp at hlen; omega
  | cons top rest =>
    have htop : top.2.value = maxBidValue bids := by
      have h1 := headVal_sortBidsDesc bids
      rw [hs] at h1
      exact h1
    have hfil : bids.filter (fun e => e.2.value = maxBidValue bids)
        = top :: rest.filter (fun e => e.2.value = maxBidValue bids) := by
      rw [← filter_sortBidsDesc, hs, List.filter_cons_of_pos (by simpa using htop)]
    have htied : tiedAtMax bids
        = top.1 :: (rest.filter (fun e => e.2.value = maxBidValue bids)).map (fun e => e.1) := by
      unfold tiedAtMax
      rw [hfil]
      simp
    have hcode : ((top :: rest).filter (fun e => e.2.value = maxBidValue bids)).map
          (fun e => e.1) = tiedAtMax bids := by
      rw [List.filter_cons_of_pos (by simpa using htop), htied]
      simp
    refine ⟨top.1,
      (rest.filter (fun e => e.2.value = maxBidValue bids)).map (fun e => e.1),
      htied, ?_, ?_⟩
    · intro htl
      unfold determine_winner
      rw [if_neg (by omega), hs]
      simp only [htop]
      rw [hcode, htied, htl]
      rfl
    · intro htl
      unfold determine_winner
      rw [if_neg (by omega), hs]
      simp only [htop]
      rw [hcode, htied]
      rw [if_pos (by
        simp only [List.length_cons, gt_iff_lt]
        have := List.length_pos.mpr htl
        omega)]
      cases tie <;> rfl

lemma mem_tiedAtMax {p : Nat} {bids : Bids} (h : p ∈ tiedAtMax bids) :
    ∃ c, (p, c) ∈ bids ∧ c.value = maxBidValue bids := by
  unfold tiedAtMax at h
  rw [List.mem_map] at h
  obtain ⟨e, he, rfl⟩ := h
  rw [List.mem_filter] at he
  exact ⟨e.2, he.1, by simpa using he.2⟩

/-- The possible outcomes of `determine_winner`, with the winner / tied
players tied back to membership in the bid map. -/
lemma determine_winner_cases (bids : Bids) (tie : TieHandling) :
    (bids.length < 2 ∧ determine_winner bids tie
        = (AuctionResult.winner_determined, none, none)) ∨
    (∃ w cw, (w, cw) ∈ bids ∧ determine_winner bids tie
        = (AuctionResult.winner_determined, some w, some [w])) ∨
    (∃ T, 2 ≤ T.length ∧ (∀ p ∈ T, ∃ c, (p, c) ∈ bids) ∧
      ((tie = TieHandling.split ∧ determine_winner bids tie
          = (AuctionResult.tie_split, none, some T)) ∨
       (tie = TieHandling.carry_forward ∧ determine_winner bids tie
          = (AuctionResult.tie_carry, none, some T)))) := by
  by_cases h2 : bids.length < 2
  · left
    exact ⟨h2, by unfold determine_winner; rw [if_pos h2]⟩
  · right
    obtain ⟨w, tl, htied, hone, hmany⟩ :=
      determine_winner_spec bids tie (by omega)
    cases htl : tl with
    | nil =>
      left
      obtain ⟨cw, hcw, _⟩ := mem_tiedAtMax (p := w) (by rw [htied]; simp)
      exact ⟨w, cw, hcw, hone htl⟩
    | cons a as =>
      right
      refine ⟨w :: tl, ?_, ?_, ?_⟩
      · rw [htl]; simp
      · intro p hp
        obtain ⟨c, hc, _⟩ := mem_tiedAtMax (p := p) (by rw [htied]; exact hp)
        exact ⟨c, hc⟩
      · have hne : tl ≠ [] := by rw [htl]; simp
        cases tie with
        | split => exact Or.inl ⟨rfl, hmany hne⟩
        | carry_forward => exact Or.inr ⟨rfl, hmany hne⟩

/-- The possible result dictionaries of `resolve_auction`: no bids, an
insufficient single bid, a clear winner, a split tie with its fractional
values, or a carry-forward tie. -/
lemma resolve_auction_cases (d : Card) (bids : Bids) (tie : TieHandling) :
    (resolve_auction d bids tie).diamond_card = d ∧
    (resolve_auction d bids tie).bids = bids ∧
    ((bids = [] ∧ (resolve_auction d bids tie).result_type = ResultType.no_bids ∧
        (resolve_auction d bids tie).winner = none ∧
        (resolve_auction d bids tie).carry_forward = false ∧
        (resolve_auction d bids tie).split_values = []) ∨
     (bids.length = 1 ∧
        (resolve_auction d bids tie).result_type = ResultType.insufficient_bids ∧
        (resolve_auction d bids tie).winner = none ∧
        (resolve_auction d bids tie).carry_forward = false ∧
        (resolve_auction d bids tie).split_values = []) ∨
     (∃ w cw, (w, cw) ∈ bids ∧
        (resolve_auction d bids tie).result_type = ResultType.winner_determined ∧
        (resolve_auction d bids tie).winner = some w ∧
        (resolve_auction d bids tie).carry_forward = false ∧
        (resolve_auction d bids tie).split_values = []) ∨
     (∃ T : List Nat, 2 ≤ T.length ∧ (∀ p ∈ T, ∃ c, (p, c) ∈ bids) ∧
        (resolve_auction d bids tie).result_type = ResultType.tie_split ∧
        (resolve_auction d bids tie).winner = none ∧
        (resolve_auction d bids tie).carry_forward = false ∧
        (resolve_auction d bids tie).split_values
          = T.map (fun p => (p, (d.value : Rat) / (T.length : Rat)))) ∨
     ((resolve_auction d bids tie).result_type = ResultType.tie_carry ∧
        (resolve_auction d bids tie).winner = none ∧
        (resolve_auction d bids tie).carry_forward = true ∧
        (resolve_auction d bids tie).split_values = [])) := by
  by_cases hb : bids.isEmpty
  · rw [List.isEmpty_iff] at hb
    subst hb
    exact ⟨rfl, rfl, Or.inl ⟨rfl, rfl, rfl, rfl, rfl⟩⟩
  · have hbne : ¬ bids = [] := fun h => hb (by simp [h])
    rcases determine_winner_cases bids tie with ⟨h2, hdet⟩ | ⟨w, cw, hcw, hdet⟩ | ⟨T, hT2, hTmem, hdet⟩
    · have h1 : bids.length = 1 := by
        have := List.length_pos.mpr hbne
        omega
      refine ⟨?_, ?_, Or.inr (Or.inl ⟨h1, ?_, ?_, ?_, ?_⟩)⟩ <;>
        · unfold resolve_auction
          rw [if_neg hb, hdet]
    · refine ⟨?_, ?_, Or.inr (Or.inr (Or.inl ⟨w, cw, hcw, ?_, ?_, ?_, ?_⟩))⟩ <;>
        · unfold resolve_auction
          rw [if_neg hb, hdet]
    · rcases hdet with ⟨htie, hdet⟩ | ⟨htie, hdet⟩
      · refine ⟨?_, ?_, Or.inr (Or.inr (Or.inr (Or.inl
          ⟨T, hT2, hTmem, ?_, ?_, ?_, ?_⟩)))⟩ <;>
          · unfold resolve_auction
            rw [if_neg hb, hdet]
            try rfl
      · refine ⟨?_, ?_, Or.inr (Or.inr (Or.inr (Or.inr ⟨?_, ?_, ?_, ?_⟩)))⟩ <;>
          · unfold resolve_auction
            rw [if_neg hb, hdet]

/-! ### Properties of bid collection -/

lemma hasBid_eq_false {bids : Bids} {i : Nat} (h : ∀ e ∈ bids, e.1 < i) :
    hasBid bids i = false := by
  unfold hasBid
  rw [List.any_eq_false]
  intro e he
  have := h e he
  simp only [decide_eq_true_eq]
  omega

lemma place_bid_fresh {bids : Bids} {i : Nat} (c : Card)
    (h : ∀ e ∈ bids, e.1 < i) :
    place_bid bids i c = (bids ++ [(i, c)], true) := by
  unfold place_bid
  rw [hasBid_eq_false h]
  simp

/-- Invariant of the bid-collection loop: starting from an accumulator of
strictly increasing keys below the current index, the collected bid map
has strictly increasing keys and every new entry records a card chosen by
the strategy of a player (at the entry's index) who still held cards. -/
lemma collect_bids_aux_invariant (bid : Nat → Player → Option Card) :
    ∀ (players : List Player) (i : Nat) (bids : Bids),
      (∀ e ∈ bids, e.1 < i) →
      List.Pairwise (fun a b : Nat × Card => a.1 < b.1) bids →
      List.Pairwise (fun a b : Nat × Card => a.1 < b.1)
          (collect_bids_aux bid i players bids) ∧
        ∀ e ∈ collect_bids_aux bid i players bids,
          e ∈ bids ∨ (i ≤ e.1 ∧ e.1 < i + players.length ∧
            ∃ pl, players[e.1 - i]? = some pl ∧ pl.has_cards = true ∧
              bid e.1 pl = some e.2) := by
  intro players
  induction players with
  | nil =>
    intro i bids hlt hp
    exact ⟨hp, fun e he => Or.inl he⟩
  | cons pl rest ih =>
    intro i bids hlt hp
    have step : ∃ bids',
        collect_bids_aux bid i (pl :: rest) bids
            = collect_bids_aux bid (i + 1) rest bids' ∧
          (∀ e ∈ bids', e.1 < i + 1) ∧
          List.Pairwise (fun a b : Nat × Card => a.1 < b.1) bids' ∧
          ∀ e ∈ bids', e ∈ bids ∨
            (e.1 = i ∧ pl.has_cards = true ∧ bid i pl = some e.2) := by
      by_cases hc : pl.has_cards
      · cases hbid : bid i pl with
        | none =>
          refine ⟨bids, by simp [collect_bids_aux, hc, hbid], ?_, hp, ?_⟩
          · intro e he; exact Nat.lt_succ_of_lt (hlt e he)
          · intro e he; exact Or.inl he
        | some c =>
          refine ⟨bids ++ [(i, c)], ?_, ?_, ?_, ?_⟩
          · simp [collect_bids_aux, hc, hbid, place_bid_fresh c hlt]
          · intro e he
            rw [List.mem_append] at he
            rcases he with he | he
            · exact Nat.lt_succ_of_lt (hlt e he)
            · simp at he; subst he; omega
          · rw [List.pairwise_append]
            refine ⟨hp, List.pairwise_singleton _ _, ?_⟩
            intro a ha b hb
            simp at hb
            subst hb
            exact hlt a ha
          · intro e he
            rw [List.mem_append] at he
            rcases he with he | he
            · exact Or.inl he
            · simp at he; subst he
              exact Or.inr ⟨by simp, hc, by simp [hbid]⟩
      · refine ⟨bids, by simp [collect_bids_aux, hc], ?_, hp, ?_⟩
        · intro e he; exact Nat.lt_succ_of_lt (hlt e he)
        · intro e he; exact Or.inl he
    obtain ⟨bids', hstep, hlt', hp', hmem'⟩ := step
    rw [hstep]
    obtain ⟨ihp, ihm⟩ := ih (i + 1) bids' hlt' hp'
    refine ⟨ihp, ?_⟩
    intro e he
    rcases ihm e he with he' | ⟨h1, h2, pl', hpl', hhc, hbid'⟩
    · rcases hmem' e he' with hb | ⟨hei, hhc, hbid'⟩
      · exact Or.inl hb
      · refine Or.inr ⟨by omega, by simp only [List.length_cons]; omega, pl, ?_, hhc, ?_⟩
        · rw [hei]
          simp
        · rw [hei]
          exact hbid'
    · refine Or.inr ⟨by omega, by simp only [List.length_cons]; omega, pl', ?_, hhc, hbid'⟩
      have heq : e.1 - i = (e.1 - (i + 1)) + 1 := by omega
      rw [heq, List.getElem?_cons_succ]
      exact hpl'

/-- Every collected bid belongs to a card-holding player at a valid index
and was chosen by that player's strategy call. -/
lemma collect_bids_mem {players : List Player} {bid : Nat → Player → Option Card}
    {e : Nat × Card} (h : e ∈ collect_bids players bid) :
    e.1 < players.length ∧ ∃ pl, players[e.1]? = some pl ∧
      pl.has_cards = true ∧ bid e.1 pl = some e.2 := by
  have := (collect_bids_aux_invariant bid players 0 [] (by simp) (by simp)).2 e h
  rcases this with h0 | ⟨_, h2, pl, hpl, hhc, hbid⟩
  · simp at h0
  · refine ⟨by omega, pl, ?_, hhc, hbid⟩
    simpa using hpl

/-- Collected bid keys are strictly increasing (in particular pairwise
distinct: at most one bid per player). -/
lemma collect_bids_pairwise (players : List Player) (bid : Nat → Player → Option Card) :
    List.Pairwise (fun a b : Nat × Card => a.1 < b.1) (collect_bids players bid) :=
  (collect_bids_aux_invariant bid players 0 [] (by simp) (by simp)).1

/-! ### Card accounting through award and bid-card removal -/

lemma add_won_at_length (players : List Player) (i : Nat) (c : Card) :
    (add_won_at players i c).length = players.length := by
  unfold add_won_at
  cases players[i]? with
  | none => rfl
  | some pl => simp

lemma add_won_at_hand_pointwise (players : List Player) (i : Nat) (c : Card)
    (j : Nat) :
    ((add_won_at players i c)[j]?).map Player.hand
      = (players[j]?).map Player.hand := by
  unfold add_won_at
  cases hp : players[i]? with
  | none => rfl
  | some pl =>
    by_cases hij : i = j
    · subst hij
      rw [List.getElem?_set_eq_of_lt _ (List.getElem?_eq_some.mp hp).1, hp]
      rfl
    · rw [List.getElem?_set_ne hij]

lemma add_won_at_handCount (players : List Player) (i : Nat) (c : Card) :
    handCount (add_won_at players i c) = handCount players := by
  unfold add_won_at
  cases hp : players[i]? with
  | none => rfl
  | some pl =>
    show handCount (players.set i (pl.add_won_card c)) = handCount players
    have := handCount_set (pl.add_won_card c) hp
    have hh : (pl.add_won_card c).hand = pl.hand := rfl
    rw [hh] at this
    omega

lemma add_won_at_wonCount_of_lt {players : List Player} {i : Nat} (c : Card)
    (h : i < players.length) :
    wonCount (add_won_at players i c) = wonCount players + 1 := by
  have hp : players[i]? = some players[i] := List.getElem?_eq_getElem h
  unfold add_won_at
  rw [hp]
  show wonCount (players.set i (players[i].add_won_card c)) = wonCount players + 1
  have := wonCount_set (players[i].add_won_card c) hp
  have hw : (players[i].add_won_card c).won_cards.length
      = players[i].won_cards.length + 1 := by
    simp [Player.add_won_card]
  omega

lemma foldl_add_won_length (d : Card) (sv : List (Nat × Rat)) :
    ∀ players : List Player,
      (sv.foldl (fun ps pv => add_won_at ps pv.1 d) players).length
        = players.length := by
  induction sv with
  | nil => intro players; rfl
  | cons pv rest ih =>
    intro players
    rw [List.foldl_cons, ih, add_won_at_length]

lemma foldl_add_won_handCount (d : Card) (sv : List (Nat × Rat)) :
    ∀ players : List Player,
      handCount (sv.foldl (fun ps pv => add_won_at ps pv.1 d) players)
        = handCount players := by
  induction sv with
  | nil => intro players; rfl
  | cons pv rest ih =>
    intro players
    rw [List.foldl_cons, ih, add_won_at_handCount]

lemma foldl_add_won_hand_pointwise (d : Card) (sv : List (Nat × Rat)) :
    ∀ (players : List Player) (j : Nat),
      ((sv.foldl (fun ps pv => add_won_at ps pv.1 d) players)[j]?).map Player.hand
        = (players[j]?).map Player.hand := by
  induction sv with
  | nil => intro players j; rfl
  | cons pv rest ih =>
    intro players j
    rw [List.foldl_cons, ih, add_won_at_hand_pointwise]

lemma foldl_add_won_wonCount (d : Card) (sv : List (Nat × Rat)) :
    ∀ players : List Player, (∀ pv ∈ sv, pv.1 < players.length) →
      wonCount (sv.foldl (fun ps pv => add_won_at ps pv.1 d) players)
        = wonCount players + sv.length := by
  induction sv with
  | nil => intro players _; rfl
  | cons pv rest ih =>
    intro players hvalid
    rw [List.foldl_cons]
    have hlen := add_won_at_length players pv.1 d
    rw [ih (add_won_at players pv.1 d)
        (fun e he => hlen ▸ hvalid e (List.mem_cons_of_mem _ he)),
      add_won_at_wonCount_of_lt d (hvalid pv (by simp))]
    simp [Nat.add_assoc, Nat.add_comm 1]

lemma process_length (players : List Player) (res : ResolveResult) :
    (process_auction_results players res).length = players.length := by
  unfold process_auction_results
  cases res.result_type with
  | winner_determined =>
    cases res.winner with
    | none => rfl
    | some w => exact add_won_at_length players w res.diamond_card
  | tie_split => exact foldl_add_won_length res.diamond_card res.split_values players
  | no_bids => rfl
  | insufficient_bids => rfl
  | tie_carry => rfl

lemma process_handCount (players : List Player) (res : ResolveResult) :
    handCount (process_auction_results players res) = handCount players := by
  unfold process_auction_results
  cases res.result_type with
  | winner_determined =>
    cases res.winner with
    | none => rfl
    | some w => exact add_won_at_handCount players w res.diamond_card
  | tie_split => exact foldl_add_won_handCount res.diamond_card res.split_values players
  | no_bids => rfl
  | insufficient_bids => rfl
  | tie_carry => rfl

lemma process_hand_pointwise (players : List Player) (res : ResolveResult)
    (j : Nat) :
    ((process_auction_results players res)[j]?).map Player.hand
      = (players[j]?).map Player.hand := by
  unfold process_auction_results
  cases res.result_type with
  | winner_determined =>
    cases res.winner with
    | none => rfl
    | some w => exact add_won_at_hand_pointwise players w res.diamond_card j
  | tie_split => exact foldl_add_won_hand_pointwise res.diamond_card res.split_values players j
  | no_bids => rfl
  | insufficient_bids => rfl
  | tie_carry => rfl

lemma process_eq_of_no_award (players : List Player) (res : ResolveResult)
    (h : res.result_type = ResultType.no_bids ∨
      res.result_type = ResultType.insufficient_bids ∨
      res.result_type = ResultType.tie_carry) :
    process_auction_results players res = players := by
  unfold process_auction_results
  rcases h with h | h | h <;> rw [h]

lemma process_wonCount_winner (players : List Player) (res : ResolveResult)
    {w : Nat} (ht : res.result_type = ResultType.winner_determined)
    (hw : res.winner = some w) (hlt : w < players.length) :
    wonCount (process_auction_results players res) = wonCount players + 1 := by
  unfold process_auction_results
  rw [ht, hw]
  exact add_won_at_wonCount_of_lt res.diamond_card hlt

lemma process_wonCount_split (players : List Player) (res : ResolveResult)
    (ht : res.result_type = ResultType.tie_split)
    (hvalid : ∀ pv ∈ res.split_values, pv.1 < players.length) :
    wonCount (process_auction_results players res)
      = wonCount players + res.split_values.length := by
  unfold process_auction_results
  rw [ht]
  exact foldl_add_won_wonCount res.diamond_card res.split_values players hvalid

lemma remove_bid_cards_cons (players : List Player) (e : Nat × Card)
    (rest : Bids) {pl : Player} (hpl : players[e.1]? = some pl) :
    remove_bid_cards players (e :: rest)
      = remove_bid_cards (players.set e.1 (pl.remove_card e.2).1) rest := by
  unfold remove_bid_cards
  rw [List.foldl_cons]
  congr 1
  rw [hpl]

/-- Removing the bid cards: with pairwise-distinct bidders each of whom
has a rank-match for its bid in its hand, every removal strips exactly
one card from a hand and no won set changes. -/
lemma remove_bid_cards_counts :
    ∀ (bids : Bids) (players : List Player),
      List.Pairwise (fun a b : Nat × Card => a.1 ≠ b.1) bids →
      (∀ e ∈ bids, ∃ pl, players[e.1]? = some pl ∧
        ∃ x ∈ pl.hand, x.rank = e.2.rank) →
      handCount (remove_bid_cards players bids) + bids.length = handCount players ∧
        wonCount (remove_bid_cards players bids) = wonCount players := by
  intro bids
  induction bids with
  | nil => intro players _ _; exact ⟨rfl, rfl⟩
  | cons e rest ih =>
    intro players hpw hmatch
    obtain ⟨pl, hpl, hx⟩ := hmatch e (by simp)
    obtain ⟨h', hh', hrem, _, hlen⟩ := remove_card_of_match hx
    have hstep : remove_bid_cards players (e :: rest)
        = remove_bid_cards (players.set e.1 { pl with hand := h' }) rest := by
      rw [remove_bid_cards_cons players e rest hpl, hrem]
    have hne : ∀ b ∈ rest, e.1 ≠ b.1 := fun b hb => List.rel_of_pairwise_cons hpw hb
    have hmatch' : ∀ e' ∈ rest, ∃ pl', (players.set e.1 { pl with hand := h' })[e'.1]? = some pl' ∧
        ∃ x ∈ pl'.hand, x.rank = e'.2.rank := by
      intro e' he'
      obtain ⟨pl', hpl', hx'⟩ := hmatch e' (List.mem_cons_of_mem _ he')
      exact ⟨pl', by rw [List.getElem?_set_ne (hne e' he')]; exact hpl', hx'⟩
    obtain ⟨ihh, ihw⟩ := ih (players.set e.1 { pl with hand := h' })
      (List.Pairwise.of_cons hpw) hmatch'
    have hhc := handCount_set { pl with hand := h' } hpl
    have hwc := wonCount_set { pl with hand := h' } hpl
    have hph : ({ pl with hand := h' } : Player).hand.length = h'.length := rfl
    have hpwon : ({ pl with hand := h' } : Player).won_cards.length
        = pl.won_cards.length := rfl
    rw [hph] at hhc
    rw [hpwon] at hwc
    constructor
    · rw [hstep]
      simp only [List.length_cons]
      omega
    · rw [hstep, ihw]
      omega

/-! ### Reducing `play_round` on its three branches -/

/-- The two end-check branches of `play_round` set the terminal flag. -/
lemma play_round_end_hands (g : Game) (strat : Nat → Player → Card → Option Card)
    (hgo : g.game_over = false) (hend : should_end_game g.players = true) :
    (play_round g strat).1
      = { g with round_number := g.round_number + 1, game_over := true } := by
  unfold play_round
  rw [if_neg (by rw [hgo]; simp), if_pos hend]

lemma play_round_end_supply (g : Game) (strat : Nat → Player → Card → Option Card)
    {g2 : Game} (hgo : g.game_over = false)
    (hend : should_end_game g.players = false)
    (hget : get_auction_card { g with round_number := g.round_number + 1 }
      = (none, g2)) :
    (play_round g strat).1 = { g2 with game_over := true } := by
  unfold play_round
  rw [if_neg (by rw [hgo]; simp),
    if_neg (by rw [show ({ g with round_number := g.round_number + 1 } : Game).players
      = g.players from rfl, hend]; simp),
    hget]

/-- The main branch of `play_round`: the components of the updated game
state, spelled out as the source computes them. -/
lemma play_round_main (g : Game) (strat : Nat → Player → Card → Option Card)
    {card : Card} {g2 : Game}
    (hgo : g.game_over = false)
    (hend : should_end_game g.players = false)
    (hget : get_auction_card { g with round_number := g.round_number + 1 }
      = (some card, g2)) :
    (play_round g strat).1.players
        = remove_bid_cards
            (process_auction_results g2.players
              (resolve_auction card
                (collect_bids g2.players (fun i pl => strat i pl card))
                g2.tie_handling))
            (resolve_auction card
              (collect_bids g2.players (fun i pl => strat i pl card))
              g2.tie_handling).bids ∧
      (play_round g strat).1.carry_forward_diamonds
        = (if (resolve_auction card
                (collect_bids g2.players (fun i pl => strat i pl card))
                g2.tie_handling).winner.isNone
              && (resolve_auction card
                (collect_bids g2.players (fun i pl => strat i pl card))
                g2.tie_handling).carry_forward
           then g2.carry_forward_diamonds
             ++ [(resolve_auction card
                (collect_bids g2.players (fun i pl => strat i pl card))
                g2.tie_handling).diamond_card]
           else g2.carry_forward_diamonds) ∧
      (play_round g strat).1.deck = g2.deck ∧
      (play_round g strat).1.game_over = g2.game_over := by
  unfold play_round
  rw [if_neg (by rw [hgo]; simp),
    if_neg (by rw [show ({ g with round_number := g.round_number + 1 } : Game).players
      = g.players from rfl, hend]; simp),
    hget]
  exact ⟨rfl, rfl, rfl, rfl⟩

/-! ### The card-conservation ledger -/

/-- Ledger for the main branch: starting from the post-draw player list
and queue, the cards in hands and won sets and the queue change by
exactly the recorded-bid discards, the dropped revealed card, and the
split duplicates.  (`+ 1` on the right accounts for the drawn revealed
card, which is in no region on the left unless re-queued or awarded.) -/
lemma main_branch_total (g2 : Game) (card : Card) (B : Bids)
    (hpw : List.Pairwise (fun a b : Nat × Card => a.1 < b.1) B)
    (hmem : ∀ e ∈ B, e.1 < g2.players.length ∧ ∃ pl,
      g2.players[e.1]? = some pl ∧ ∃ x ∈ pl.hand, x.rank = e.2.rank) :
    handCount (remove_bid_cards
        (process_auction_results g2.players (resolve_auction card B g2.tie_handling))
        (resolve_auction card B g2.tie_handling).bids)
      + wonCount (remove_bid_cards
        (process_auction_results g2.players (resolve_auction card B g2.tie_handling))
        (resolve_auction card B g2.tie_handling).bids)
      + (if (resolve_auction card B g2.tie_handling).winner.isNone
            && (resolve_auction card B g2.tie_handling).carry_forward
         then g2.carry_forward_diamonds
           ++ [(resolve_auction card B g2.tie_handling).diamond_card]
         else g2.carry_forward_diamonds).length
      + B.length + droppedCount (resolve_auction card B g2.tie_handling)
    = handCount g2.players + wonCount g2.players
      + g2.carry_forward_diamonds.length + 1
      + duplicatedCount (resolve_auction card B g2.tie_handling) := by
  obtain ⟨hd, hbids, hcase⟩ := resolve_auction_cases card B g2.tie_handling
  rw [hbids]
  have hproc_hand := process_hand_pointwise g2.players
    (resolve_auction card B g2.tie_handling)
  have hmatch1 : ∀ e ∈ B, ∃ pl,
      (process_auction_results g2.players
        (resolve_auction card B g2.tie_handling))[e.1]? = some pl ∧
      ∃ x ∈ pl.hand, x.rank = e.2.rank := by
    intro e he
    obtain ⟨_, pl, hpl, hx⟩ := hmem e he
    have hh := hproc_hand e.1
    rw [hpl] at hh
    simp only [Option.map_some'] at hh
    rw [Option.map_eq_some'] at hh
    obtain ⟨pl1, hpl1, hhand⟩ := hh
    refine ⟨pl1, hpl1, ?_⟩
    rw [hhand]
    exact hx
  obtain ⟨hrm_hand, hrm_won⟩ := remove_bid_cards_counts B
    (process_auction_results g2.players (resolve_auction card B g2.tie_handling))
    (hpw.imp (fun h => Nat.ne_of_lt h)) hmatch1
  have hproc_handCount := process_handCount g2.players
    (resolve_auction card B g2.tie_handling)
  rcases hcase with ⟨hB0, ht, hw, hc, hsv⟩ | ⟨hB1, ht, hw, hc, hsv⟩ |
    ⟨w, cw, hwmem, ht, hw, hc, hsv⟩ | ⟨T, hT2, hTmem, ht, hw, hc, hsv⟩ |
    ⟨ht, hw, hc, hsv⟩
  · -- no bids: the revealed card is dropped
    have hproc := process_eq_of_no_award g2.players _ (Or.inl ht)
    rw [hproc] at hrm_hand hrm_won
    have hqlen : (if (resolve_auction card B g2.tie_handling).winner.isNone
          && (resolve_auction card B g2.tie_handling).carry_forward
        then g2.carry_forward_diamonds
          ++ [(resolve_auction card B g2.tie_handling).diamond_card]
        else g2.carry_forward_diamonds).length
        = g2.carry_forward_diamonds.length := by
      rw [hw, hc]
      simp
    have hdrop : droppedCount (resolve_auction card B g2.tie_handling) = 1 := by
      simp [droppedCount, ht]
    have hdup : duplicatedCount (resolve_auction card B g2.tie_handling) = 0 := by
      simp [duplicatedCount, ht]
    rw [hqlen, hdrop, hdup, hproc]
    omega
  · -- one bid: insufficient, the revealed card is dropped
    have hproc := process_eq_of_no_award g2.players _ (Or.inr (Or.inl ht))
    rw [hproc] at hrm_hand hrm_won
    have hqlen : (if (resolve_auction card B g2.tie_handling).winner.isNone
          && (resolve_auction card B g2.tie_handling).carry_forward
        then g2.carry_forward_diamonds
          ++ [(resolve_auction card B g2.tie_handling).diamond_card]
        else g2.carry_forward_diamonds).length
        = g2.carry_forward_diamonds.length := by
      rw [hw, hc]
      simp
    have hdrop : droppedCount (resolve_auction card B g2.tie_handling) = 1 := by
      simp [droppedCount, ht]
    have hdup : duplicatedCount (resolve_auction card B g2.tie_handling) = 0 := by
      simp [duplicatedCount, ht]
    rw [hqlen, hdrop, hdup, hproc]
    omega
  · -- clear winner: the revealed card moves to the winner's won set
    have hwlt : w < g2.players.length := (hmem (w, cw) hwmem).1
    have hproc_won := process_wonCount_winner g2.players
      (resolve_auction card B g2.tie_handling) ht hw hwlt
    have hqlen : (if (resolve_auction card B g2.tie_handling).winner.isNone
          && (resolve_auction card B g2.tie_handling).carry_forward
        then g2.carry_forward_diamonds
          ++ [(resolve_auction card B g2.tie_handling).diamond_card]
        else g2.carry_forward_diamonds).length
        = g2.carry_forward_diamonds.length := by
      rw [hw, hc]
      simp
    have hdrop : droppedCount (resolve_auction card B g2.tie_handling) = 0 := by
      simp [droppedCount, ht]
    have hdup : duplicatedCount (resolve_auction card B g2.tie_handling) = 0 := by
      simp [duplicatedCount, ht]
    rw [hqlen, hdrop, hdup]
    omega
  · -- split tie: the revealed card is duplicated into every tied won set
    have hvalid : ∀ pv ∈ (resolve_auction card B g2.tie_handling).split_values,
        pv.1 < g2.players.length := by
      intro pv hpv
      rw [hsv, List.mem_map] at hpv
      obtain ⟨p, hp, rfl⟩ := hpv
      obtain ⟨c, hcB⟩ := hTmem p hp
      exact (hmem (p, c) hcB).1
    have hproc_won := process_wonCount_split g2.players
      (resolve_auction card B g2.tie_handling) ht hvalid
    have hsvlen : (resolve_auction card B g2.tie_handling).split_values.length
        = T.length := by rw [hsv, List.length_map]
    have hqlen : (if (resolve_auction card B g2.tie_handling).winner.isNone
          && (resolve_auction card B g2.tie_handling).carry_forward
        then g2.carry_forward_diamonds
          ++ [(resolve_auction card B g2.tie_handling).diamond_card]
        else g2.carry_forward_diamonds).length
        = g2.carry_forward_diamonds.length := by
      rw [hw, hc]
      simp
    have hdup : duplicatedCount (resolve_auction card B g2.tie_handling)
        = (resolve_auction card B g2.tie_handling).split_values.length - 1 := by
      simp [duplicatedCount, ht]
    have hdrop : droppedCount (resolve_auction card B g2.tie_handling) = 0 := by
      simp [droppedCount, ht]
    rw [hqlen, hdrop, hdup]
    omega
  · -- carry-forward tie: the revealed card is re-queued
    have hproc := process_eq_of_no_award g2.players _ (Or.inr (Or.inr ht))
    rw [hproc] at hrm_hand hrm_won
    have hqlen : (if (resolve_auction card B g2.tie_handling).winner.isNone
          && (resolve_auction card B g2.tie_handling).carry_forward
        then g2.carry_forward_diamonds
          ++ [(resolve_auction card B g2.tie_handling).diamond_card]
        else g2.carry_forward_diamonds).length
        = g2.carry_forward_diamonds.length + 1 := by
      rw [hw, hc]
      simp
    have hdrop : droppedCount (resolve_auction card B g2.tie_handling) = 0 := by
      simp [droppedCount, ht]
    have hdup : duplicatedCount (resolve_auction card B g2.tie_handling) = 0 := by
      simp [duplicatedCount, ht]
    rw [hqlen, hdrop, hdup, hproc]
    omega

lemma bidMatches_spec {players : List Player} {e : Nat × Card}
    (h : bidMatches players e = true) {pl : Player}
    (hpl : players[e.1]? = some pl) :
    ∃ x ∈ pl.hand, x.rank = e.2.rank := by
  unfold bidMatches at h
  rw [hpl] at h
  rw [List.any_eq_true] at h
  obtain ⟨x, hx, hxr⟩ := h
  exact ⟨x, hx, by simpa using hxr⟩

/-! ## Claim theorems -/

/-- C1 (counterexample): card conservation fails on the code.  In a
freshly set-up two-player game (a reachable state: `setup_game` deals
each suit to its player and leaves the diamonds as the pile) with both
players on the source's aggressive strategy, one round changes the total
number of cards in hands + auction pile + carry-forward queue + won sets
(here 39 before, 38 after: both bid aces are discarded and the revealed
ace of diamonds is added to both won sets by the SPLIT award). -/
theorem C1_counterexample_total_changes :
    totalCards (play_round setupGame aggStrat).1 ≠ totalCards setupGame := by
  decide

/-- C1 (amended): the exact card ledger of one round.  From a live state
(game not over, some hand non-empty, revealed card drawn) in which every
recorded bid is covered by a rank-match in the bidder's hand, the card
total is not constant: it decreases by one per recorded bid (bid cards
are discarded to no region), decreases by one more when the round
resolves with zero or one bids (the revealed card is dropped), and
increases by one per tied player beyond the first under a SPLIT award
(the undivided revealed card is added to every tied player's won set). -/
theorem C1_card_conservation_delta (g : Game)
    (strat : Nat → Player → Card → Option Card) {card : Card} {g2 : Game}
    (hgo : g.game_over = false)
    (hend : should_end_game g.players = false)
    (hget : get_auction_card { g with round_number := g.round_number + 1 }
      = (some card, g2))
    (hmatch : ∀ e ∈ collect_bids g2.players (fun i pl => strat i pl card),
      bidMatches g2.players e = true) :
    totalCards (play_round g strat).1
        + (collect_bids g2.players (fun i pl => strat i pl card)).length
        + droppedCount (resolve_auction card
            (collect_bids g2.players (fun i pl => strat i pl card))
            g2.tie_handling)
      = totalCards g
        + duplicatedCount (resolve_auction card
            (collect_bids g2.players (fun i pl => strat i pl card))
            g2.tie_handling) := by
  obtain ⟨hpl, hq, hdk, _⟩ := play_round_main g strat hgo hend hget
  have hply : g2.players = g.players := (get_auction_card_some _ hget).1
  have hsup : g2.deck.length + g2.carry_forward_diamonds.length + 1
      = g.deck.length + g.carry_forward_diamonds.length :=
    (get_auction_card_some _ hget).2.2.2.2.2
  have hmem : ∀ e ∈ collect_bids g2.players (fun i pl => strat i pl card),
      e.1 < g2.players.length ∧ ∃ pl, g2.players[e.1]? = some pl ∧
        ∃ x ∈ pl.hand, x.rank = e.2.rank := by
    intro e he
    obtain ⟨h1, pl, hpl', _, _⟩ := collect_bids_mem he
    exact ⟨h1, pl, hpl', bidMatches_spec (hmatch e he) hpl'⟩
  have htot := main_branch_total g2 card _
    (collect_bids_pairwise g2.players (fun i pl => strat i pl card)) hmem
  unfold totalCards
  rw [hpl, hq, hdk, ← hply]
  omega

/-- C1 (witness): the ledger theorem applied to the first round of the
fresh two-player game. -/
theorem C1_card_conservation_delta_witness :
    totalCards (play_round setupGame aggStrat).1
        + (collect_bids setupDrawn.players
            (fun i pl => aggStrat i pl aceDiamonds)).length
        + droppedCount (resolve_auction aceDiamonds
            (collect_bids setupDrawn.players
              (fun i pl => aggStrat i pl aceDiamonds))
            setupDrawn.tie_handling)
      = totalCards setupGame
        + duplicatedCount (resolve_auction aceDiamonds
            (collect_bids setupDrawn.players
              (fun i pl => aggStrat i pl aceDiamonds))
            setupDrawn.tie_handling) :=
  C1_card_conservation_delta setupGame aggStrat (by decide) (by decide)
    (by decide) (by decide)

/-- C2 (code bug): under the SPLIT policy the fractional split values are
computed by `resolve_auction` exactly as the claim says (revealed ace of
diamonds, value 14, split two ways: 7 each, summing to 14) — but
`_process_auction_results` never applies them: it adds the undivided
revealed card to EVERY tied player's won set, so `get_score` credits each
tied player the full 14, and the credits for the round sum to 28, not 14.
(The source's own comment says "we'll add the original card and handle
scoring separately", and its round display prints the 7-point split the
scores then contradict.) -/
theorem C2_split_credits_full_value :
    (resolve_auction aceDiamonds
        (collect_bids setupDrawn.players (fun i pl => aggStrat i pl aceDiamonds))
        setupDrawn.tie_handling).split_values
      = [(0, (7 : Rat)), (1, (7 : Rat))] ∧
    (play_round setupGame aggStrat).1.players.map Player.get_score = [14, 14] := by
  constructor
  · have hty : (resolve_auction aceDiamonds
        (collect_bids setupDrawn.players (fun i pl => aggStrat i pl aceDiamonds))
        setupDrawn.tie_handling).result_type = ResultType.tie_split := by decide
    have hfst : ((resolve_auction aceDiamonds
        (collect_bids setupDrawn.players (fun i pl => aggStrat i pl aceDiamonds))
        setupDrawn.tie_handling).split_values).map Prod.fst = [0, 1] := by decide
    obtain ⟨-, -, hcase⟩ := resolve_auction_cases aceDiamonds
      (collect_bids setupDrawn.players (fun i pl => aggStrat i pl aceDiamonds))
      setupDrawn.tie_handling
    rcases hcase with ⟨-, ht, -, -, -⟩ | ⟨-, ht, -, -, -⟩ | ⟨w, cw, -, ht, -, -, -⟩ |
      ⟨T, -, -, ht, -, -, hsv⟩ | ⟨ht, -, -, -⟩
    · rw [ht] at hty; exact ResultType.noConfusion hty
    · rw [ht] at hty; exact ResultType.noConfusion hty
    · rw [ht] at hty; exact ResultType.noConfusion hty
    · rw [hsv] at hfst
      simp [Function.comp_def] at hfst
      subst hfst
      rw [hsv]
      norm_num [aceDiamonds, Card.value]
    · rw [ht] at hty; exact ResultType.noConfusion hty
  · decide

/-- C3 (code bug): a Strategy returning a card absent from the hand is
not rejected.  Player 0's hand is exactly the king of hearts; its
strategy returns the king of spades.  The bid is recorded in the bid map
(it even wins the round's ten of diamonds) and `_remove_bid_cards`
silently removes the rank-equal king of HEARTS from the hand — the claim
requires rejection as a no-bid with the hand left unchanged. -/
theorem C3_foreign_bid_accepted_and_wrong_card_removed :
    (play_round violGame violStrat).2.bids = [(0, kingSpades), (1, queenSpades)] ∧
    (play_round violGame violStrat).1.players
      = [⟨[], [tenDiamonds]⟩, ⟨[], []⟩] := by
  decide

lemma add_won_at_get_self {players : List Player} {w : Nat} {pl : Player}
    (d : Card) (hpl : players[w]? = some pl) :
    (add_won_at players w d)[w]? = some (pl.add_won_card d) := by
  unfold add_won_at
  rw [hpl]
  exact List.getElem?_set_eq_of_lt _ (List.getElem?_eq_some.mp hpl).1

lemma add_won_at_get_ne {players : List Player} {w : Nat} (d : Card)
    {j : Nat} (hj : j ≠ w) :
    (add_won_at players w d)[j]? = players[j]? := by
  unfold add_won_at
  cases players[w]? with
  | none => rfl
  | some pl => exact List.getElem?_set_ne (fun h => hj h.symm)

lemma resolve_auction_winner_shape (d : Card) (bids : Bids) (tie : TieHandling)
    {w : Nat} (hne : bids ≠ [])
    (hdet : determine_winner bids tie
      = (AuctionResult.winner_determined, some w, some [w])) :
    resolve_auction d bids tie
      = { diamond_card := d, bids := bids,
          result_type := ResultType.winner_determined, winner := some w,
          tied_players := some [w], diamond_awarded := true,
          carry_forward := false, split_values := [] } := by
  unfold resolve_auction
  rw [if_neg (by simp only [List.isEmpty_iff]; exact hne), hdet]

/-- C4: for a bid map with at least two recorded bids, resolution computes
the maximum bid value and the list `tiedAtMax` of all bidders whose card
value (rank only — suits never compared) equals that maximum; a singleton
yields WINNER for that bidder, with the revealed card appended to exactly
that bidder's won set by result processing; two or more tied bidders
yield the tie outcome of the configured policy with no winner. -/
theorem C4_tie_break (bids : Bids) (tie : TieHandling) (d : Card)
    (players : List Player) (h2 : 2 ≤ bids.length) :
    (determine_winner bids tie).2.2 = some (tiedAtMax bids) ∧
    (∀ w, tiedAtMax bids = [w] →
      determine_winner bids tie
          = (AuctionResult.winner_determined, some w, some [w]) ∧
        (resolve_auction d bids tie).result_type = ResultType.winner_determined ∧
        (resolve_auction d bids tie).winner = some w ∧
        (resolve_auction d bids tie).diamond_awarded = true ∧
        (∀ pl, players[w]? = some pl →
          (process_auction_results players (resolve_auction d bids tie))[w]?
            = some { pl with won_cards := pl.won_cards ++ [d] }) ∧
        (∀ j, j ≠ w →
          (process_auction_results players (resolve_auction d bids tie))[j]?
            = players[j]?)) ∧
    (2 ≤ (tiedAtMax bids).length →
      (determine_winner bids tie).2.1 = none ∧
      determine_winner bids tie
        = ((match tie with
            | TieHandling.split => AuctionResult.tie_split
            | TieHandling.carry_forward => AuctionResult.tie_carry), none,
           some (tiedAtMax bids))) := by
  have hne : bids ≠ [] := by
    intro h
    rw [h] at h2
    simp at h2
  obtain ⟨w0, tl, htied, hone, hmany⟩ := determine_winner_spec bids tie h2
  refine ⟨?_, ?_, ?_⟩
  · cases htl : tl with
    | nil =>
      rw [hone htl, htied, htl]
    | cons a as =>
      rw [hmany (by rw [htl]; simp), htied]
  · intro w hw
    have hw0 : w0 = w ∧ tl = [] := by
      rw [htied] at hw
      exact ⟨(List.cons.injEq _ _ _ _ ▸ hw).1, (List.cons.injEq _ _ _ _ ▸ hw).2⟩
    obtain ⟨rfl, htl⟩ := hw0
    have hdet := hone htl
    have hshape := resolve_auction_winner_shape d bids tie hne hdet
    have hproc : process_auction_results players (resolve_auction d bids tie)
        = add_won_at players w0 d := by
      rw [hshape]
      rfl
    refine ⟨hdet, by rw [hshape], by rw [hshape], by rw [hshape], ?_, ?_⟩
    · intro pl hpl
      rw [hproc]
      exact add_won_at_get_self d hpl
    · intro j hj
      rw [hproc]
      exact add_won_at_get_ne d hj
  · intro hlen
    have htl : tl ≠ [] := by
      intro h
      rw [htied, h] at hlen
      simp at hlen
    rw [hmany htl, htied]
    exact ⟨rfl, rfl⟩

/-- C4 (witness): two bids, king of hearts (13) versus queen of spades
(12) — a unique maximum. -/
theorem C4_tie_break_witness :
    2 ≤ ([(0, kingHearts), (1, queenSpades)] : Bids).length ∧
    (determine_winner [(0, kingHearts), (1, queenSpades)] TieHandling.split).2.2
      = some (tiedAtMax [(0, kingHearts), (1, queenSpades)]) :=
  ⟨by decide,
    (C4_tie_break [(0, kingHearts), (1, queenSpades)] TieHandling.split
      tenDiamonds violGame.players (by decide)).1⟩

/-- C5: resolving with zero recorded bids yields the 'no_bids' outcome and
result processing moves no card; resolving with exactly one recorded bid
yields 'insufficient_bids', the revealed card is not awarded
(`diamond_awarded = false`, processing moves no card) and is not returned
to any pile (`carry_forward = false`, so the round driver never re-queues
it). -/
theorem C5_no_bids_and_single_bid (d : Card) (tie : TieHandling)
    (p : Nat) (c : Card) (players : List Player) :
    resolve_auction d [] tie
      = { diamond_card := d, bids := [], result_type := ResultType.no_bids,
          winner := none, tied_players := some [], diamond_awarded := false,
          carry_forward := false, split_values := [] } ∧
    process_auction_results players (resolve_auction d [] tie) = players ∧
    resolve_auction d [(p, c)] tie
      = { diamond_card := d, bids := [(p, c)],
          result_type := ResultType.insufficient_bids, winner := none,
          tied_players := none, diamond_awarded := false,
          carry_forward := false, split_values := [] } ∧
    process_auction_results players (resolve_auction d [(p, c)] tie) = players :=
  ⟨rfl, rfl, rfl, rfl⟩

lemma countBid_eq_zero {bids : Bids} {p : Nat} (h : hasBid bids p = false) :
    countBid bids p = 0 := by
  unfold hasBid at h
  rw [List.any_eq_false] at h
  unfold countBid
  rw [List.filter_eq_nil_iff.mpr h]
  rfl

/-- C6: `place_bid` for a player who already has a recorded bid returns
false and leaves the bid map unchanged, and placing bids preserves the
at-most-one-recorded-bid-per-player invariant. -/
theorem C6_at_most_one_bid_per_round (bids : Bids) (p : Nat) (c : Card) :
    (hasBid bids p = true → place_bid bids p c = (bids, false)) ∧
    (∀ q, countBid bids q ≤ 1 → countBid (place_bid bids p c).1 q ≤ 1) := by
  constructor
  · intro h
    simp [place_bid, h]
  · intro q hq
    cases h : hasBid bids p with
    | true =>
      simp [place_bid, h]
      exact hq
    | false =>
      simp only [place_bid, h, Bool.false_eq_true, if_false]
      unfold countBid at hq ⊢
      rw [List.filter_append, List.length_append]
      by_cases hpq : p = q
      · subst hpq
        have h0 := countBid_eq_zero h
        unfold countBid at h0
        simp [h0]
      · rw [List.filter_cons_of_neg (by simpa using hpq)]
        simpa using hq

/-- C6 (witness): a duplicate bid by player 0 is refused and the map is
unchanged; the one-bid invariant survives the call. -/
theorem C6_at_most_one_bid_witness :
    place_bid [(0, kingHearts)] 0 queenSpades = ([(0, kingHearts)], false) ∧
    countBid (place_bid [(0, kingHearts)] 0 queenSpades).1 0 ≤ 1 :=
  ⟨(C6_at_most_one_bid_per_round [(0, kingHearts)] 0 queenSpades).1 (by decide),
   (C6_at_most_one_bid_per_round [(0, kingHearts)] 0 queenSpades).2 0 (by decide)⟩

/-- C7: the driver's auction-card selection pops the FRONT of the
carry-forward queue whenever it is non-empty (the deck untouched); only
with an empty queue does it draw the top of the auction pile; and it
yields no card exactly when queue and pile are both empty. -/
theorem C7_next_auction_card (g : Game) :
    (∀ c rest, g.carry_forward_diamonds = c :: rest →
      get_auction_card g = (some c, { g with carry_forward_diamonds := rest })) ∧
    (g.carry_forward_diamonds = [] → ∀ c, g.deck.getLast? = some c →
      get_auction_card g = (some c, { g with deck := g.deck.dropLast })) ∧
    ((get_auction_card g).1 = none ↔
      g.carry_forward_diamonds = [] ∧ g.deck = []) := by
  refine ⟨?_, ?_, get_auction_card_none_iff g⟩
  · intro c rest h
    unfold get_auction_card
    rw [h]
  · intro hq c hd
    unfold get_auction_card
    rw [hq, hd]

/-- C7 (witness): a queued card is popped before the pile is touched; an
empty queue draws the pile's top; both empty yields none. -/
theorem C7_next_auction_card_witness :
    get_auction_card queueGame
        = (some kingSpades, { queueGame with carry_forward_diamonds := [] }) ∧
    get_auction_card violGame
        = (some tenDiamonds, { violGame with deck := violGame.deck.dropLast }) ∧
    (get_auction_card drainedGame).1 = none :=
  ⟨(C7_next_auction_card queueGame).1 kingSpades [] rfl,
   (C7_next_auction_card violGame).2.1 rfl tenDiamonds rfl,
   (C7_next_auction_card drainedGame).2.2.mpr ⟨rfl, rfl⟩⟩

/-- C8: a round (entered with the terminal flag clear) sets the flag
exactly when every player's hand is empty — regardless of the pile and
queue — or when no auction card is available (queue and pile both empty)
— regardless of the hands. -/
theorem C8_round_sets_terminal_iff (g : Game)
    (strat : Nat → Player → Card → Option Card) (hgo : g.game_over = false) :
    ((play_round g strat).1.game_over = true ↔
      (∀ pl ∈ g.players, pl.hand = []) ∨
        (g.carry_forward_diamonds = [] ∧ g.deck = [])) := by
  cases hend : should_end_game g.players with
  | true =>
    rw [play_round_end_hands g strat hgo hend]
    exact iff_of_true rfl (Or.inl ((should_end_game_iff g.players).mp hend))
  | false =>
    rcases hget : get_auction_card { g with round_number := g.round_number + 1 }
      with ⟨fst, g2⟩
    cases fst with
    | none =>
      rw [play_round_end_supply g strat hgo hend hget]
      have hboth : g.carry_forward_diamonds = [] ∧ g.deck = [] :=
        (get_auction_card_none_iff { g with round_number := g.round_number + 1 }).mp
          (by rw [hget])
      exact iff_of_true rfl (Or.inr hboth)
    | some c =>
      obtain ⟨-, -, -, hover⟩ := play_round_main g strat hgo hend hget
      have hg2 : g2.game_over = false := by
        have h := get_auction_card_game_over
          { g with round_number := g.round_number + 1 }
        rw [hget] at h
        exact h.trans hgo
      apply iff_of_false
      · rw [hover, hg2]
        simp
      · rintro (h | h)
        · have hh := (should_end_game_iff g.players).mpr h
          rw [hend] at hh
          exact Bool.noConfusion hh
        · have hnone := (get_auction_card_none_iff
            { g with round_number := g.round_number + 1 }).mpr h
          rw [hget] at hnone
          exact Option.noConfusion hnone

/-- C8 (witness): the termination criterion instantiated at a position
with a non-empty hand and an exhausted supply. -/
theorem C8_round_sets_terminal_iff_witness :
    ((play_round drainedGame aggStrat).1.game_over = true ↔
      (∀ pl ∈ drainedGame.players, pl.hand = []) ∨
        (drainedGame.carry_forward_diamonds = [] ∧ drainedGame.deck = [])) :=
  C8_round_sets_terminal_iff drainedGame aggStrat rfl

/-- C9: calling `play_round` when the terminal flag is already set
returns a result carrying the error marker and leaves the entire game
state — players (hands and won sets), deck, queue, round counter and
history — unchanged. -/
theorem C9_play_round_after_game_over (g : Game)
    (strat : Nat → Player → Card → Option Card) (hgo : g.game_over = true) :
    (play_round g strat).1 = g ∧ (play_round g strat).2.error = true := by
  unfold play_round
  rw [if_pos hgo]
  exact ⟨rfl, rfl⟩

/-- C9 (witness): a finished game rejects a further round untouched. -/
theorem C9_play_round_after_game_over_witness :
    (play_round overGame violStrat).1 = overGame ∧
      (play_round overGame violStrat).2.error = true :=
  C9_play_round_after_game_over overGame violStrat rfl

/-- C10: `Player.remove_card` removes the first hand card whose rank
equals the given card's rank (the suit is never consulted), returning
true and shrinking the hand by one; with no rank match it returns false
and the player is unchanged. -/
theorem C10_remove_card_first_rank_match (p : Player) (c : Card) :
    ((∀ x ∈ p.hand, x.rank ≠ c.rank) → p.remove_card c = (p, false)) ∧
    (∀ l₁ x l₂, p.hand = l₁ ++ x :: l₂ → (∀ y ∈ l₁, y.rank ≠ c.rank) →
      x.rank = c.rank →
      p.remove_card c = ({ p with hand := l₁ ++ l₂ }, true) ∧
        (l₁ ++ l₂).length + 1 = p.hand.length) := by
  constructor
  · intro h
    unfold Player.remove_card
    rw [removeFirstEq_none_iff.mpr h]
  · intro l₁ x l₂ hsplit h1 hx
    have hrem : removeFirstEq p.hand c = some (l₁ ++ l₂) := by
      rw [hsplit]
      exact removeFirstEq_skip h1 hx
    constructor
    · unfold Player.remove_card
      rw [hrem]
    · rw [hsplit]
      simp
      omega

/-- C10 (witness): removing by the king of SPADES deletes the king of
HEARTS (first rank match, suit ignored); with no king in the hand the
call fails and the hand is untouched. -/
theorem C10_remove_card_witness :
    Player.remove_card ⟨[queenSpades, kingHearts], []⟩ kingSpades
      = (⟨[queenSpades], []⟩, true) ∧
    Player.remove_card ⟨[queenSpades], []⟩ kingSpades
      = (⟨[queenSpades], []⟩, false) :=
  ⟨((C10_remove_card_first_rank_match ⟨[queenSpades, kingHearts], []⟩
        kingSpades).2 [queenSpades] kingHearts [] rfl (by decide) (by decide)).1,
   (C10_remove_card_first_rank_match ⟨[queenSpades], []⟩ kingSpades).1
     (by decide)⟩

end DickOfCards
